import Mathlib

set_option maxRecDepth 10000

/-
Verification of the membership and trust core of the routing repository.

The development shallowly embeds the Rust sources:
  * src/routing_table/prefix.rs        (Prefix algebra)
  * src/section/section_proof_chain.rs (SectionProofChain)
  * src/section/shared_state.rs        (SharedState)
  * src/node/stage/joining.rs          (Joining stage)
Helper modules that the repository uses but whose sources are not present
(XorName bit operations, SectionMembers, SectionMap, EldersInfo) are
modelled from the specification; each such definition is marked
"Modelled from the spec:".

Machine integers (u16, u64, usize, u8) are modelled as Nat: none of the
verified operations can overflow them (lengths and versions only grow by
one and bit counts are clamped at XOR_NAME_BITS).
-/

/-- Number of bits in an `XorName` (constant `XOR_NAME_BITS = 256`). -/
def XOR_NAME_BITS : Nat := 256

/-- Modelled from the spec: `XorName` is a fixed-width (256) bit string,
here a list of booleans indexed from the most significant bit.
The `xor_space` module is not among the provided sources. -/
def XorName : Type := List Bool

instance : DecidableEq XorName := by
  unfold XorName
  infer_instance

instance : BEq XorName := by
  unfold XorName
  exact instBEqOfDecidableEq

/-- Modelled from the spec: bit read (`XorName::bit`). Reads bit `i`,
defaulting to `false` out of range (well-formed callers stay in range). -/
def XorName.bit (n : XorName) (i : Nat) : Bool :=
  List.getD n i false

/-- Modelled from the spec: bit set (`XorName::with_bit`). Out-of-range
indices leave the name unchanged. -/
def XorName.with_bit (n : XorName) (i : Nat) (b : Bool) : XorName :=
  List.set n i b

/-- Modelled from the spec: bit flip (`XorName::with_flipped_bit`). -/
def XorName.with_flipped_bit (n : XorName) (i : Nat) : XorName :=
  List.set n i (!(List.getD n i false))

/-- Modelled from the spec: `XorName::set_remaining(i, b)` keeps the first
`i` bits and sets every remaining bit to `b`. -/
def XorName.set_remaining (n : XorName) (i : Nat) (b : Bool) : XorName :=
  List.take i n ++ List.replicate (List.length n - i) b

/-- Modelled from the spec: common-prefix-length of two bit strings
(`XorName::common_prefix`); named `common_pfx` here. -/
def XorName.common_pfx : XorName → XorName → Nat
  | a :: as, b :: bs => if a = b then XorName.common_pfx as bs + 1 else 0
  | _, _ => 0

/-- Prefix of the XOR name space: `bit_count` significant bits of `name`
(struct `Prefix` in prefix.rs; `bit_count` is a `u16` in the source). -/
structure Pfx where
  bit_count : Nat
  name : XorName
deriving DecidableEq

/-- Creates a new prefix from the first `bit_count` bits of `name`,
clamping `bit_count` to `XOR_NAME_BITS` (`Prefix::new`). -/
def Pfx.new (bit_count : Nat) (name : XorName) : Pfx :=
  { bit_count := min bit_count XOR_NAME_BITS
    name := name.set_remaining bit_count false }

/-- Appends bit `b` (`Prefix::pushed`); no-op on the bit count at the
maximum. -/
def Pfx.pushed (p : Pfx) (b : Bool) : Pfx :=
  { bit_count := min (p.bit_count + 1) XOR_NAME_BITS
    name := p.name.with_bit p.bit_count b }

/-- Drops the last bit and re-clears it (`Prefix::popped`); no-op on the
empty prefix. -/
def Pfx.popped (p : Pfx) : Pfx :=
  if p.bit_count > 0 then
    { bit_count := p.bit_count - 1
      name := p.name.with_bit (p.bit_count - 1) false }
  else p

/-- Compatibility check (`Prefix::is_compatible`): one is a prefix of the
other. In the source `i` names `common_prefix(self.name, other.name)`. -/
def Pfx.is_compatible (p other : Pfx) : Bool :=
  decide (p.bit_count ≤ p.name.common_pfx other.name) ||
    decide (other.bit_count ≤ p.name.common_pfx other.name)

/-- Neighbour check (`Prefix::is_neighbour`): differs in exactly one bit.
In the source `i` names `common_prefix(self.name, other.name)` and `j`
names `common_prefix(self.name.with_flipped_bit(i), other.name)`. -/
def Pfx.is_neighbour (p other : Pfx) : Bool :=
  if p.bit_count ≤ p.name.common_pfx other.name ∨
      other.bit_count ≤ p.name.common_pfx other.name then
    false
  else
    decide (p.bit_count ≤
        (p.name.with_flipped_bit (p.name.common_pfx other.name)).common_pfx
          other.name) ||
      decide (other.bit_count ≤
        (p.name.with_flipped_bit (p.name.common_pfx other.name)).common_pfx
          other.name)

/-- Match check (`Prefix::matches`): the prefix is a prefix of `name`. -/
def Pfx.matches (p : Pfx) (name : XorName) : Bool :=
  decide (p.bit_count ≤ p.name.common_pfx name)

/-- Structural equality used by the source (`impl PartialEq for Prefix`):
compatible with equal bit counts, i.e. equal bit sequences. -/
def Pfx.eqb (p other : Pfx) : Bool :=
  p.is_compatible other && decide (p.bit_count = other.bit_count)

/-- Cleared-insignificant-bits invariant of `Prefix` (spec §3: bits beyond
`bit_count` in `name` are zero). -/
def Pfx.cleared (p : Pfx) : Prop :=
  ∀ k, p.bit_count ≤ k → List.getD p.name k false = false

/-- Well-formedness of a prefix value: the name holds exactly
`XOR_NAME_BITS` bits and the bit count is in range. -/
def Pfx.wf (p : Pfx) : Prop :=
  List.length p.name = XOR_NAME_BITS ∧ p.bit_count ≤ XOR_NAME_BITS

/-- Builds the 256-bit name whose leading bits are `bits` and whose
remaining bits are zero (as the test helper `Prefix::from_str` does). -/
def mkName (bits : List Bool) : XorName :=
  bits ++ List.replicate (XOR_NAME_BITS - bits.length) false

/-- Builds the prefix denoted by the bit string `bits`
(as `Prefix::from_str` does). -/
def mkPfx (bits : List Bool) : Pfx :=
  Pfx.new bits.length (mkName bits)

/- Section proof chain (section_proof_chain.rs). BLS keys and signatures
are opaque values of the external BLS library (spec §6); they are modelled
as naturals, and `bls::PublicKey::verify(&signature, &key.to_bytes())` is
modelled by an arbitrary verification function `vf key_verifying signature
key_signed`, over which all theorems quantify. -/

/-- BLS public key (external interface, spec §6), modelled as Nat. -/
abbrev BlsPublicKey := Nat

/-- BLS signature (external interface, spec §6), modelled as Nat. -/
abbrev BlsSignature := Nat

/-- Abstract BLS verification: `vf pk sig key` stands for
`pk.verify(&sig, &key.to_bytes())`. -/
abbrev VerifyFn := BlsPublicKey → BlsSignature → BlsPublicKey → Bool

/-- Block of the section proof chain (struct `Block`). -/
structure Block where
  key : BlsPublicKey
  signature : BlsSignature
deriving DecidableEq

/-- Default block used only as a `getD` fallback in statements. -/
def Block.dflt : Block := ⟨0, 0⟩

/-- Signature check of a block against the previous key (`Block::verify`). -/
def Block.verify (vf : VerifyFn) (b : Block) (public_key : BlsPublicKey) :
    Bool :=
  vf public_key b.signature b.key

/-- Chain of section BLS keys (struct `SectionProofChain`). -/
structure SectionProofChain where
  head : BlsPublicKey
  tail : List Block
deriving DecidableEq

/-- Creates a new chain consisting of only one block
(`SectionProofChain::new`). -/
def SectionProofChain.new (first : BlsPublicKey) : SectionProofChain :=
  ⟨first, []⟩

/-- First key of the chain (`first_key`). -/
def SectionProofChain.first_key (c : SectionProofChain) : BlsPublicKey :=
  c.head

/-- Last key of the chain (`last_key`). -/
def SectionProofChain.last_key (c : SectionProofChain) : BlsPublicKey :=
  (c.tail.getLast?.map Block.key).getD c.head

/-- Pushes a new key into the chain but only if the signature is valid
(`push`); on an invalid signature the error is only logged and the chain
is unchanged. -/
def SectionProofChain.push (vf : VerifyFn) (c : SectionProofChain)
    (key : BlsPublicKey) (signature : BlsSignature) : SectionProofChain :=
  if vf c.last_key signature key then
    ⟨c.head, c.tail ++ [⟨key, signature⟩]⟩
  else c

/-- All keys of the chain, oldest first (`keys`). -/
def SectionProofChain.keys (c : SectionProofChain) : List BlsPublicKey :=
  c.head :: c.tail.map Block.key

/-- Index of the first occurrence of `key` in the chain (`index_of`). -/
def SectionProofChain.index_of (c : SectionProofChain)
    (key : BlsPublicKey) : Option Nat :=
  c.keys.findIdx? (fun existing_key => existing_key = key)

/-- Number of blocks in the chain including the first one (`len`). -/
def SectionProofChain.len (c : SectionProofChain) : Nat :=
  1 + c.tail.length

/-- Index of the last key in the chain (`last_key_index`). -/
def SectionProofChain.last_key_index (c : SectionProofChain) : Nat :=
  c.tail.length

/-- Loop of `self_verify`: checks each block of `bs` against the running
key, starting from `current_key`. -/
def selfVerifyFrom (vf : VerifyFn) (current_key : BlsPublicKey) :
    List Block → Bool
  | [] => true
  | b :: rest =>
    if b.verify vf current_key then selfVerifyFrom vf b.key rest else false

/-- Checks that all blocks of the chain except the first have valid
signatures (`self_verify`). -/
def SectionProofChain.self_verify (vf : VerifyFn)
    (c : SectionProofChain) : Bool :=
  selfVerifyFrom vf c.head c.tail

/-- Result of a message trust check (enum `TrustStatus`). -/
inductive TrustStatus where
  | Trusted
  | Invalid
  | Unknown
deriving DecidableEq

/-- Loop of `check_trust`: verifies the given blocks anchored at
`trusted_key`, advancing the anchor to each verified block's key. -/
def checkFrom (vf : VerifyFn) (trusted_key : BlsPublicKey) :
    List Block → TrustStatus
  | [] => TrustStatus.Trusted
  | b :: rest =>
    if b.verify vf trusted_key then checkFrom vf b.key rest
    else TrustStatus.Invalid

/-- Reverse scan of `latest_trusted_key`: the source enumerates
`keys().rev()`, remaps each reverse index `r` to `last - r` and returns
the first enumerated pair whose key is trusted. `r` is the enumeration
counter. -/
def findRev (trusted_keys : List BlsPublicKey) (last : Nat) :
    Nat → List BlsPublicKey → Option (Nat × BlsPublicKey)
  | _, [] => none
  | r, k :: rest =>
    if k ∈ trusted_keys then some (last - r, k)
    else findRev trusted_keys last (r + 1) rest

/-- Latest key of the chain that is among the trusted keys, with its index
(`latest_trusted_key`). -/
def SectionProofChain.latest_trusted_key (c : SectionProofChain)
    (trusted_keys : List BlsPublicKey) : Option (Nat × BlsPublicKey) :=
  findRev trusted_keys (c.len - 1) 0 c.keys.reverse

/-- Verifies the proof chain against the given trusted keys
(`check_trust`). -/
def SectionProofChain.check_trust (vf : VerifyFn) (c : SectionProofChain)
    (trusted_keys : List BlsPublicKey) : TrustStatus :=
  match c.latest_trusted_key trusted_keys with
  | some (index, trusted_key) => checkFrom vf trusted_key (c.tail.drop index)
  | none =>
    if c.self_verify vf then TrustStatus.Unknown else TrustStatus.Invalid

/-- Claim-side notion for C1: block `j` of the chain verifies against its
predecessor key (key `j` of the chain). -/
def blockOk (vf : VerifyFn) (c : SectionProofChain) (j : Nat) : Bool :=
  (c.tail.getD j Block.dflt).verify vf (c.keys.getD j 0)

/-- Claim-side notion for C1: `i` is the newest index of the chain whose
key occurs in the trusted set `T`. -/
def SectionProofChain.newestTrustedIdx (c : SectionProofChain)
    (T : List BlsPublicKey) (i : Nat) : Prop :=
  i < c.keys.length ∧ List.getD c.keys i 0 ∈ T ∧
    ∀ j, i < j → j < c.keys.length → List.getD c.keys j 0 ∉ T

/- Shared state (shared_state.rs) and the joining stage (joining.rs).
The helper modules SectionMembers, SectionMap, EldersInfo, the id types
and the consensus event type are not among the provided sources and are
modelled from the specification. -/

/-- Socket address (transport interface), modelled as Nat. -/
abbrev SocketAddr := Nat

/-- Message hash (`MessageHash`), modelled as Nat. -/
abbrev MessageHash := Nat

/-- Modelled from the spec: `PublicId` exposes a `XorName` (spec §3). -/
structure PublicId where
  name : XorName
deriving DecidableEq

/-- Modelled from the spec: `P2pNode` is a `(PublicId, SocketAddr)` pair
(spec §3). -/
structure P2pNode where
  public_id : PublicId
  peer_addr : SocketAddr
deriving DecidableEq

/-- Name of a peer node. -/
def P2pNode.name (n : P2pNode) : XorName :=
  n.public_id.name

/-- Modelled from the spec: member lifecycle state (spec §3,
`MemberState`). -/
inductive MemberState where
  | Joined
  | Relocating (node_knowledge : Nat)
  | Left
deriving DecidableEq

/-- Modelled from the spec: maturity threshold for the age counter
(spec §4.5). The spec does not fix the numeric value; none of the
verified claims depends on it. -/
def MATURITY_THRESHOLD : Nat := 16

/-- Modelled from the spec: per-member info (spec §3, `MemberInfo`). -/
structure MemberInfo where
  p2p_node : P2pNode
  age : Nat
  age_counter : Nat
  state : MemberState
deriving DecidableEq

/-- Modelled from the spec: a member is mature when its age counter
reached the threshold (spec §4.5). -/
def MemberInfo.is_mature (info : MemberInfo) : Bool :=
  decide (MATURITY_THRESHOLD ≤ info.age_counter)

/-- Modelled from the spec: `SectionMembers` is a mapping XorName →
MemberInfo (spec §4.5), here a list of member infos keyed by the member
name. -/
abbrev SectionMembers := List MemberInfo

/-- Modelled from the spec: membership test by name. Note that `Left`
members are retained until pruned (spec §3), so they still count here. -/
def SectionMembers.contains (m : SectionMembers) (name : XorName) : Bool :=
  m.any (fun info => decide (info.p2p_node.name = name))

/-- Modelled from the spec: lookup by name. -/
def SectionMembers.get (m : SectionMembers) (name : XorName) :
    Option MemberInfo :=
  m.find? (fun info => decide (info.p2p_node.name = name))

/-- Modelled from the spec: the `joined` members (spec §4.5). -/
def SectionMembers.joined (m : SectionMembers) : List MemberInfo :=
  m.filter (fun info => decide (info.state = MemberState.Joined))

/-- Modelled from the spec: the `active` members, `Joined` plus
`Relocating` (spec §3, §4.5). -/
def SectionMembers.active (m : SectionMembers) : List MemberInfo :=
  m.filter (fun info => decide (info.state ≠ MemberState.Left))

/-- Modelled from the spec: the mature members (age counter at least the
threshold, among active members), yielded as `P2pNode`s (spec §4.5). -/
def SectionMembers.mature (m : SectionMembers) : List P2pNode :=
  (m.active.filter MemberInfo.is_mature).map (fun info => info.p2p_node)

/-- Modelled from the spec: lexicographic ascending order on names. -/
def nameLeB : List Bool → List Bool → Bool
  | [], _ => true
  | _ :: _, [] => false
  | a :: as, b :: bs => if a = b then nameLeB as bs else decide (a = false)

/-- Modelled from the spec: elder selection order — age descending, name
ascending (spec §4.5). -/
def elderLe (a b : MemberInfo) : Bool :=
  if a.age = b.age then nameLeB a.p2p_node.name b.p2p_node.name
  else decide (b.age < a.age)

/-- Insertion step of the stable sort used for elder selection. -/
def insertSorted {α : Type} (le : α → α → Bool) (x : α) :
    List α → List α
  | [] => [x]
  | y :: ys => if le x y then x :: y :: ys else y :: insertSorted le x ys

/-- Stable insertion sort used for elder selection (the spec only asks
for a deterministic sort by the elder order). -/
def sortBy {α : Type} (le : α → α → Bool) : List α → List α
  | [] => []
  | x :: xs => insertSorted le x (sortBy le xs)

/-- Modelled from the spec: elder candidates — sort active members by
(age DESC, name ASC), take the first `elder_size` (spec §4.5). -/
def SectionMembers.elder_candidates (m : SectionMembers)
    (elder_size : Nat) : List P2pNode :=
  ((sortBy elderLe m.active).take elder_size).map
    (fun info => info.p2p_node)

/-- Modelled from the spec: elder candidates restricted to names matching
the given prefix (spec §4.5, `elder_candidates_matching_prefix`). -/
def SectionMembers.elder_candidates_matching_prefix (m : SectionMembers)
    (p : Pfx) (elder_size : Nat) : List P2pNode :=
  ((sortBy elderLe
      (m.active.filter (fun info => p.matches info.p2p_node.name))).take
    elder_size).map (fun info => info.p2p_node)

/-- Modelled from the spec: `EldersInfo` — prefix, version and the
ordered elder mapping XorName → P2pNode (spec §3), here the list of elder
nodes (keyed by their names). -/
structure EldersInfo where
  elders : List P2pNode
  pfx : Pfx
  version : Nat
deriving DecidableEq

/-- Modelled from the spec: `EldersInfo::new(elders, prefix, version)`. -/
def EldersInfo.new (elders : List P2pNode) (pfx : Pfx) (version : Nat) :
    EldersInfo :=
  ⟨elders, pfx, version⟩

/-- Modelled from the spec: `SectionMap` — our `EldersInfo`, the
neighbour infos, the known section keys and the knowledge table
(spec §4.4). -/
structure SectionMap where
  our : EldersInfo
  neighbours : List EldersInfo
  keys : List (Pfx × BlsPublicKey)
  knowledge : List (Pfx × Nat)
deriving DecidableEq

/-- Modelled from the spec: whether `key` is among the known section keys
(used by `update_section_knowledge`). -/
def SectionMap.has_key (m : SectionMap) (key : BlsPublicKey) : Bool :=
  m.keys.any (fun e => decide (e.2 = key))

/-- Modelled from the spec: knowledge-table lookup, `0` if absent
(spec §4.4, `knowledge_by_section`). -/
def SectionMap.knowledge_by_section (m : SectionMap) (p : Pfx) : Nat :=
  ((m.knowledge.find? (fun e => Pfx.eqb e.1 p)).map (fun e => e.2)).getD 0

/-- Modelled from the spec: relocation order (spec §3,
`RelocateDetails`). -/
structure RelocateDetails where
  pub_id : PublicId
  destination : XorName
  destination_key : BlsPublicKey
  age : Nat
deriving DecidableEq

/-- Modelled from the spec: network parameters (spec §6,
`NetworkParams`). -/
structure NetworkParams where
  elder_size : Nat
  recommended_section_size : Nat
deriving DecidableEq

/-- Modelled from the spec: the consensus events consumed and emitted by
the shared state (spec §6); only the kinds the verified operations touch
are listed, plus `Online`/`Offline`/`User` as backlog contents. -/
inductive AccumulatingEvent where
  | Online (p2p_node : P2pNode)
  | Offline (pub_id : PublicId)
  | TheirKeyInfo (pfx : Pfx) (key : BlsPublicKey)
  | TheirKnowledge (pfx : Pfx) (knowledge : Nat)
  | SendNeighbourInfo (dst : XorName) (nonce : MessageHash)
  | User (payload : List Nat)
deriving DecidableEq

/-- Modelled from the spec: message source authority — a section
(prefix and key) or a single node (spec §4.3, `SrcAuthority`). -/
inductive SrcAuthority where
  | node (name : XorName)
  | section (pfx : Pfx) (key : BlsPublicKey)
deriving DecidableEq

/-- Modelled from the spec: `SrcAuthority::as_section_prefix_and_key`,
succeeding exactly on section authorities. -/
def SrcAuthority.as_section_prefix_and_key (src : SrcAuthority) :
    Option (Pfx × BlsPublicKey) :=
  match src with
  | SrcAuthority.node _ => none
  | SrcAuthority.section p k => some (p, k)

/-- Section state shared among the elders (struct `SharedState`). -/
structure SharedState where
  handled_genesis_event : Bool
  our_history : SectionProofChain
  our_members : SectionMembers
  sections : SectionMap
  churn_event_backlog : List AccumulatingEvent
  relocate_queue : List RelocateDetails
deriving DecidableEq

/-- Our own current section info (`our_info`). -/
def SharedState.our_info (s : SharedState) : EldersInfo :=
  s.sections.our

/-- Our own current section's prefix (`our_prefix`). -/
def SharedState.our_pfx (s : SharedState) : Pfx :=
  s.our_info.pfx

/-- Whether the given peer is an elder of our section
(`is_peer_our_elder`, a key lookup in `our_info().elders`). -/
def SharedState.is_peer_our_elder (s : SharedState) (name : XorName) :
    Bool :=
  s.our_info.elders.any (fun n => decide (n.name = name))

/-- Genesis update (`SharedState::update`): the two error situations are
only logged (`log_or_panic!` panics in debug builds only), then the state
is replaced by `new` and the flag set, unconditionally. The result pairs
the final state with the two logged-error indicators. -/
def SharedState.update (s new : SharedState) : SharedState × Bool × Bool :=
  ( { new with handled_genesis_event := true },
    s.handled_genesis_event,
    decide (1 < s.our_history.len) && decide (s ≠ new) )

/-- Loop of `poll_relocation` acting on the reversed queue: the source
pops from the back, dropping entries that are no longer members, until it
finds a member entry or exhausts the queue. -/
def pollLoopRev (m : SectionMembers) :
    List RelocateDetails → Option (RelocateDetails × List RelocateDetails)
  | [] => none
  | d :: rest =>
    if m.contains d.pub_id.name then some (d, rest) else pollLoopRev m rest

/-- Relocation polling (`poll_relocation`): returns `None` immediately
when the churn event backlog is non-empty; otherwise pops from the back
of the queue, skipping (and dropping) entries that are not members, and
defers (pushes back) an entry whose member is still our elder. Returns
the popped details (if any) together with the updated state. -/
def SharedState.poll_relocation (s : SharedState) :
    Option RelocateDetails × SharedState :=
  if s.churn_event_backlog ≠ [] then (none, s)
  else
    match pollLoopRev s.our_members s.relocate_queue.reverse with
    | none => (none, { s with relocate_queue := [] })
    | some (details, restRev) =>
      if s.is_peer_our_elder details.pub_id.name then
        (none, { s with relocate_queue := (details :: restRev).reverse })
      else
        (some details, { s with relocate_queue := restRev.reverse })

/-- Knowledge update (`update_section_knowledge`): returns the consensus
events to vote for. `TheirKeyInfo` is pushed first, then
`TheirKnowledge`, then at most one `SendNeighbourInfo` (the source tracks
it with the `vote_send_neighbour_info` flag). -/
def SharedState.update_section_knowledge (s : SharedState)
    (src : SrcAuthority) (dst_key : Option BlsPublicKey)
    (hash : MessageHash) : List AccumulatingEvent :=
  match src.as_section_prefix_and_key with
  | none => []
  | some (p0, new_key) =>
    (if !s.sections.has_key new_key && !s.our_pfx.is_neighbour p0 then
      [AccumulatingEvent.TheirKeyInfo p0 new_key]
    else []) ++
    (match dst_key with
      | none => []
      | some dk =>
        if s.sections.knowledge_by_section p0 <
            (s.our_history.index_of dk).getD 0 then
          [AccumulatingEvent.TheirKnowledge p0
            ((s.our_history.index_of dk).getD 0)]
        else []) ++
    (if (!s.sections.has_key new_key && s.our_pfx.is_neighbour p0) ||
        (match dst_key with
          | none => false
          | some dk =>
            s.our_pfx.is_neighbour p0 &&
              decide ((s.our_history.index_of dk).getD 0 <
                s.our_history.last_key_index)) then
      [AccumulatingEvent.SendNeighbourInfo p0.name hash]
    else [])

/-- Split attempt (`try_split`): counts mature members on each side of
the next bit of our prefix; if both counts reach
`recommended_section_size`, returns the two child `EldersInfo`s (ours
first), each with version + 1 and elders chosen among active members
matching the child prefix. -/
def SharedState.try_split (s : SharedState) (params : NetworkParams)
    (our_name : XorName) : Option (EldersInfo × EldersInfo) :=
  if ((s.our_members.mature).filter (fun nd =>
        decide (nd.name.bit s.our_pfx.bit_count =
          our_name.bit s.our_pfx.bit_count))).length <
      params.recommended_section_size ∨
     ((s.our_members.mature).filter (fun nd =>
        decide (¬ (nd.name.bit s.our_pfx.bit_count =
          our_name.bit s.our_pfx.bit_count)))).length <
      params.recommended_section_size then
    none
  else
    some
      (EldersInfo.new
        (s.our_members.elder_candidates_matching_prefix
          (s.our_pfx.pushed (our_name.bit s.our_pfx.bit_count))
          params.elder_size)
        (s.our_pfx.pushed (our_name.bit s.our_pfx.bit_count))
        (s.our_info.version + 1),
      EldersInfo.new
        (s.our_members.elder_candidates_matching_prefix
          (s.our_pfx.pushed (!(our_name.bit s.our_pfx.bit_count)))
          params.elder_size)
        (s.our_pfx.pushed (!(our_name.bit s.our_pfx.bit_count)))
        (s.our_info.version + 1))

/-- Claim-side notion for C5: number of mature members whose name matches
the child prefix of our prefix extended by bit `b`. -/
def countMatureChild (s : SharedState) (b : Bool) : Nat :=
  ((s.our_members.mature).filter (fun nd =>
    (s.our_pfx.pushed b).matches nd.name)).length

/-- Elder candidates from currently relocating nodes
(`elder_candidates_from_relocating`): walk the relocation queue, look the
members up, keep non-`Left` ones, take `count`. -/
def SharedState.elder_candidates_from_relocating (s : SharedState)
    (count : Nat) : List P2pNode :=
  ((((s.relocate_queue.map (fun details => details.pub_id.name)).filterMap
      (fun name => s.our_members.get name)).filter
      (fun info => decide (info.state ≠ MemberState.Left))).take count).map
    (fun info => info.p2p_node)

/-- Insert a node into an elder map keyed by name (`BTreeMap::insert`
semantics: replaces the entry with the same name, appends otherwise). -/
def insertByName (l : List P2pNode) (n : P2pNode) : List P2pNode :=
  if l.any (fun m => decide (m.name = n.name)) then
    l.map (fun m => if m.name = n.name then n else m)
  else l ++ [n]

/-- Extend an elder map with further entries (`BTreeMap::extend`). -/
def extendByName (base extra : List P2pNode) : List P2pNode :=
  extra.foldl insertByName base

/-- Elder candidates of the shared state (`SharedState::elder_candidates`):
the members' candidates, supplemented from the relocation queue when
fewer than `elder_size`. -/
def SharedState.elder_candidates (s : SharedState) (elder_size : Nat) :
    List P2pNode :=
  extendByName (s.our_members.elder_candidates elder_size)
    (s.elder_candidates_from_relocating
      (elder_size - (s.our_members.elder_candidates elder_size).length))

/-- Set equality of elder lists (the source compares
`BTreeSet<P2pNode>`s). -/
def listSetEq (a b : List P2pNode) : Bool :=
  a.all (fun x => decide (x ∈ b)) && b.all (fun x => decide (x ∈ a))

/-- Outcome of `promote_and_demote_elders`: either the fatal
merge panic or a normal return. -/
inductive PromoteResult where
  | panicked (info : EldersInfo)
  | ok (result : Option (List EldersInfo))
deriving DecidableEq

/-- Whether a promote outcome is the fatal merge panic. -/
def PromoteResult.isPanic : PromoteResult → Bool
  | PromoteResult.panicked _ => true
  | PromoteResult.ok _ => false

/-- Promote/demote (`promote_and_demote_elders`). In the source,
`old_size` is read from `self.our_info().elders.len()` before `new_info`
is constructed, but `self` is not modified in between, so the later read
`self.our_info().elders.len()` in the merge check yields the same value;
both reads are therefore embedded as `s.our_info.elders.length`. -/
def SharedState.promote_and_demote_elders (s : SharedState)
    (params : NetworkParams) (our_name : XorName) : PromoteResult :=
  match s.try_split params our_name with
  | some (our_info', other_info) => PromoteResult.ok (some [our_info', other_info])
  | none =>
    if listSetEq (s.elder_candidates params.elder_size)
        s.our_info.elders then
      PromoteResult.ok none
    else
      if s.our_info.elders.length < params.elder_size ∧
          params.elder_size ≤ s.our_info.elders.length then
        PromoteResult.panicked s.our_info
      else
        PromoteResult.ok (some [EldersInfo.new
          (s.elder_candidates params.elder_size) s.our_info.pfx
          (s.our_info.version + 1)])

/- Joining stage (joining.rs). -/

/-- Relocation payload carried by a relocating join, opaque here
(`RelocatePayload`). -/
abbrev RelocatePayload := Nat

/-- Whether the node joins for the first time or is relocating
(enum `JoinType`). -/
inductive JoinType where
  | First (timeout_token : Nat)
  | Relocate (payload : RelocatePayload)
deriving DecidableEq

/-- The joining stage state (struct `Joining`). -/
structure Joining where
  elders_info : EldersInfo
  join_type : JoinType
deriving DecidableEq

/-- Join request payload (struct `JoinRequest`). -/
structure JoinRequest where
  elders_version : Nat
  relocate_payload : Option RelocatePayload
deriving DecidableEq

/-- Relocate payload attached to join requests, by join type
(the `match` at the top of `send_join_requests`). -/
def JoinType.relocate_payload_of : JoinType → Option RelocatePayload
  | JoinType.First _ => none
  | JoinType.Relocate payload => some payload

/-- Sends a `JoinRequest` to every elder of the target section
(`send_join_requests`); modelled as the list of (address, payload)
messages handed to the transport. -/
def Joining.send_join_requests (j : Joining) :
    List (SocketAddr × JoinRequest) :=
  j.elders_info.elders.map (fun dst =>
    (dst.peer_addr,
      JoinRequest.mk j.elders_info.version j.join_type.relocate_payload_of))

/-- Bootstrap response handling (`handle_bootstrap_response` for
`BootstrapResponse::Join`): ignore stale versions; on a newer version
matching our name, replace the stored `EldersInfo` and re-send join
requests; on a newer version not matching our name, only log the
protocol violation (the returned flag). Returns the new stage state, the
sent messages and the violation flag. -/
def Joining.handle_bootstrap_response (j : Joining) (our_name : XorName)
    (new_elders_info : EldersInfo) :
    Joining × List (SocketAddr × JoinRequest) × Bool :=
  if new_elders_info.version ≤ j.elders_info.version then (j, [], false)
  else if new_elders_info.pfx.matches our_name then
    (⟨new_elders_info, j.join_type⟩,
      (Joining.mk new_elders_info j.join_type).send_join_requests, false)
  else (j, [], true)

/- Concrete states used by witnesses and counterexamples. -/

/-- All-zero 256-bit name. -/
def zeroName : XorName := mkName []

/-- The empty prefix over the all-zero name. -/
def emptyPfx : Pfx := Pfx.mk 0 zeroName

/-- Concrete node used in witness states. -/
def nodeA : P2pNode := P2pNode.mk (PublicId.mk (mkName [false, false])) 1

/-- Concrete node used in witness states. -/
def nodeB : P2pNode := P2pNode.mk (PublicId.mk (mkName [false, true])) 2

/-- Network parameters of the merge-scenario state: two elders required,
large section size. -/
def mergeBugParams : NetworkParams := NetworkParams.mk 2 10

/-- Shared state exhibiting the unsupported merge scenario: the current
section has two elders (meeting `elder_size = 2`) but no active members,
so the expected elder set is empty — the section shrinks below
`elder_size` after having met it. -/
def mergeBugState : SharedState :=
  SharedState.mk false (SectionProofChain.new 0) []
    (SectionMap.mk (EldersInfo.mk [nodeA, nodeB] emptyPfx 0) [] [] []) [] []

/-- Shared state with a backlogged churn event and a pending relocation,
used to witness relocation serialization. -/
def backlogState : SharedState :=
  SharedState.mk false (SectionProofChain.new 0) []
    (SectionMap.mk (EldersInfo.mk [nodeA, nodeB] emptyPfx 0) [] [] [])
    [AccumulatingEvent.User [7]]
    [RelocateDetails.mk (PublicId.mk zeroName) zeroName 0 5]

/-- Joining stage at elders-info version 5, used to witness the bootstrap
upgrade (spec scenario S5). -/
def joiningV5 : Joining :=
  Joining.mk (EldersInfo.mk [nodeA] emptyPfx 5) (JoinType.First 0)

/-- Version-7 elders info matching every name (empty prefix), used to
witness the bootstrap upgrade (spec scenario S5). -/
def eldersInfoV7 : EldersInfo :=
  EldersInfo.mk [nodeB] emptyPfx 7

/-- Network parameters of the split witness state. -/
def splitParams : NetworkParams := NetworkParams.mk 1 1

/-- Mature joined member on the zero side of the first bit. -/
def memberZero : MemberInfo :=
  MemberInfo.mk (P2pNode.mk (PublicId.mk (mkName [false])) 3) 5
    MATURITY_THRESHOLD MemberState.Joined

/-- Mature joined member on the one side of the first bit. -/
def memberOne : MemberInfo :=
  MemberInfo.mk (P2pNode.mk (PublicId.mk (mkName [true])) 4) 5
    MATURITY_THRESHOLD MemberState.Joined

/-- Shared state ready to split: one mature member under each child of
the empty prefix. -/
def splitState : SharedState :=
  SharedState.mk false (SectionProofChain.new 0) [memberZero, memberOne]
    (SectionMap.mk (EldersInfo.mk [nodeA] emptyPfx 0) [] [] []) [] []

/- Supporting lemmas about `common_pfx`, `List.getD` and `List.set`. -/

theorem common_pfx_self (x : List Bool) : XorName.common_pfx x x = x.length := by
  induction x with
  | nil => rfl
  | cons a as ih => simp [XorName.common_pfx, ih]

theorem common_pfx_le_left (x y : List Bool) :
    XorName.common_pfx x y ≤ x.length := by
  induction x generalizing y with
  | nil => simp [XorName.common_pfx]
  | cons a as ih =>
    cases y with
    | nil => simp [XorName.common_pfx]
    | cons b bs =>
      by_cases h : a = b
      · simpa [XorName.common_pfx, h] using ih bs
      · simp [XorName.common_pfx, h]

theorem common_pfx_le_right (x y : List Bool) :
    XorName.common_pfx x y ≤ y.length := by
  induction x generalizing y with
  | nil => simp [XorName.common_pfx]
  | cons a as ih =>
    cases y with
    | nil => simp [XorName.common_pfx]
    | cons b bs =>
      by_cases h : a = b
      · simpa [XorName.common_pfx, h] using ih bs
      · simp [XorName.common_pfx, h]

theorem getD_eq_of_lt_common_pfx {x y : List Bool} {k : Nat}
    (h : k < XorName.common_pfx x y) :
    List.getD x k false = List.getD y k false := by
  induction x generalizing y k with
  | nil => simp [XorName.common_pfx] at h
  | cons a as ih =>
    cases y with
    | nil => simp [XorName.common_pfx] at h
    | cons b bs =>
      by_cases hab : a = b
      · cases k with
        | zero => simpa using hab
        | succ k =>
          simp only [XorName.common_pfx, hab, if_true] at h
          simpa using ih (y := bs) (k := k) (by omega)
      · simp [XorName.common_pfx, hab] at h

theorem getD_common_pfx_ne {x y : List Bool}
    (hx : XorName.common_pfx x y < x.length)
    (hy : XorName.common_pfx x y < y.length) :
    List.getD x (XorName.common_pfx x y) false ≠
      List.getD y (XorName.common_pfx x y) false := by
  induction x generalizing y with
  | nil => simp at hx
  | cons a as ih =>
    cases y with
    | nil => simp at hy
    | cons b bs =>
      by_cases hab : a = b
      · subst hab
        simp only [XorName.common_pfx, List.length_cons, eq_self_iff_true,
          if_true] at hx hy ⊢
        simp only [List.getD_cons_succ]
        exact ih (y := bs) (by omega) (by omega)
      · simp [XorName.common_pfx, hab]

theorem common_pfx_le_of_getD_ne {x y : List Bool} {i : Nat}
    (h : List.getD x i false ≠ List.getD y i false) :
    XorName.common_pfx x y ≤ i := by
  by_contra hlt
  exact h (getD_eq_of_lt_common_pfx (by omega))

theorem le_common_pfx_of_getD_eq {x y : List Bool} {m : Nat}
    (hx : m ≤ x.length) (hy : m ≤ y.length)
    (h : ∀ k, k < m → List.getD x k false = List.getD y k false) :
    m ≤ XorName.common_pfx x y := by
  induction x generalizing y m with
  | nil =>
    simp only [List.length_nil] at hx
    omega
  | cons a as ih =>
    cases y with
    | nil =>
      simp only [List.length_nil] at hy
      omega
    | cons b bs =>
      cases m with
      | zero => omega
      | succ m =>
        have hab : a = b := by simpa using h 0 (by omega)
        have : m ≤ XorName.common_pfx as bs := by
          refine ih (by simpa using hx) (by simpa using hy) ?_
          intro k hk
          simpa using h (k + 1) (by omega)
        simp only [XorName.common_pfx, hab, if_true]
        omega

theorem getD_set_self {l : List Bool} {i : Nat} {a d : Bool}
    (h : i < l.length) : List.getD (l.set i a) i d = a := by
  simp [List.getD_eq_getElem?_getD, List.getElem?_set_self h]

theorem getD_set_ne {l : List Bool} {i j : Nat} {a d : Bool}
    (h : i ≠ j) : List.getD (l.set i a) j d = List.getD l j d := by
  simp [List.getD_eq_getElem?_getD, List.getElem?_set_ne h]

theorem set_getD_self {l : List Bool} {i : Nat} {b : Bool}
    (h : List.getD l i false = b) : l.set i b = l := by
  induction l generalizing i with
  | nil => rfl
  | cons a as ih =>
    cases i with
    | zero => simpa using h.symm
    | succ i =>
      simp only [List.set]
      rw [ih (by simpa using h)]

theorem getD_set_remaining_of_le {l : List Bool} {i k : Nat} {b : Bool}
    (hl : l.length ≤ XOR_NAME_BITS) (hik : min i XOR_NAME_BITS ≤ k) :
    List.getD (XorName.set_remaining l i b) k b = b := by
  unfold XorName.set_remaining
  rw [List.getD_eq_getElem?_getD]
  rcases Nat.lt_or_ge k (List.take i l ++ List.replicate (l.length - i) b).length
    with hk | hk
  · have hkt : (List.take i l).length ≤ k := by
      simp only [List.length_take]
      unfold XOR_NAME_BITS at *
      omega
    rw [List.getElem?_append_right hkt]
    have hlt : k - (List.take i l).length < l.length - i := by
      simp only [List.length_append, List.length_take, List.length_replicate] at hk
      simp only [List.length_take]
      omega
    rw [List.getElem?_replicate, if_pos hlt]
    rfl
  · rw [List.getElem?_eq_none hk]
    rfl

theorem cleared_new (bc : Nat) (n : XorName)
    (hn : List.length n ≤ XOR_NAME_BITS) : (Pfx.new bc n).cleared := by
  intro k hk
  exact getD_set_remaining_of_le hn (by simpa [Pfx.new] using hk)

/-- Claim C9 — pushing a bit and popping it returns the original prefix
(under the source's `PartialEq`, i.e. equal bit sequences), and the result
again satisfies the cleared-insignificant-bits invariant.
Hypotheses: the prefix is well-formed (256-bit name, bit count in range),
`bit_count < XOR_NAME_BITS`, and the prefix satisfies the invariant. -/
theorem pushed_popped_roundtrip (p : Pfx) (b : Bool)
    (hlen : List.length p.name = XOR_NAME_BITS)
    (hbc : p.bit_count < XOR_NAME_BITS)
    (hcl : p.cleared) :
    Pfx.eqb ((p.pushed b).popped) p = true ∧ ((p.pushed b).popped).cleared := by
  have hmin : min (p.bit_count + 1) XOR_NAME_BITS = p.bit_count + 1 := by
    omega
  have hname : (p.name.set p.bit_count b).set p.bit_count false = p.name := by
    rw [List.set_set]
    exact set_getD_self (hcl p.bit_count le_rfl)
  have hpp : (p.pushed b).popped = p := by
    simp only [Pfx.pushed, Pfx.popped, XorName.with_bit, hmin]
    rw [if_pos (by omega : p.bit_count + 1 > 0)]
    simp only [Nat.add_sub_cancel, hname]
  constructor
  · rw [hpp]
    have hle : p.bit_count ≤ XOR_NAME_BITS := by omega
    simp [Pfx.eqb, Pfx.is_compatible, common_pfx_self, hlen, hle]
  · rw [hpp]
    exact hcl

/-- Witness for `pushed_popped_roundtrip` at the concrete prefix "101"
with pushed bit `true`. -/
theorem pushed_popped_roundtrip_witness :
    Pfx.eqb (((mkPfx [true, false, true]).pushed true).popped)
        (mkPfx [true, false, true]) = true ∧
      (((mkPfx [true, false, true]).pushed true).popped).cleared :=
  pushed_popped_roundtrip (mkPfx [true, false, true]) true (by decide)
    (by decide) (cleared_new 3 (mkName [true, false, true]) (by decide))

theorem flip_not_compatible_of_ne {a b : Pfx} {i : Nat}
    (ha : a.wf) (hb : b.wf)
    (hca : a.name.common_pfx b.name < a.bit_count)
    (hcb : a.name.common_pfx b.name < b.bit_count)
    (hi : i < min a.bit_count b.bit_count)
    (hne : i ≠ a.name.common_pfx b.name) :
    (Pfx.mk a.bit_count (a.name.with_flipped_bit i)).is_compatible b = false := by
  obtain ⟨hal, hau⟩ := ha
  obtain ⟨hbl, hbu⟩ := hb
  have hle : XorName.common_pfx (a.name.with_flipped_bit i) b.name ≤
      a.name.common_pfx b.name ∨
      XorName.common_pfx (a.name.with_flipped_bit i) b.name ≤ i := by
    rcases Nat.lt_or_ge i (a.name.common_pfx b.name) with hlt | hge
    · refine Or.inr (common_pfx_le_of_getD_ne ?_)
      have h1 : List.getD (a.name.with_flipped_bit i) i false =
          !(List.getD a.name i false) := by
        unfold XorName.with_flipped_bit
        exact getD_set_self (by omega)
      have h2 : List.getD a.name i false = List.getD b.name i false :=
        getD_eq_of_lt_common_pfx hlt
      rw [h1, ← h2]
      cases List.getD a.name i false <;> simp
    · have hgt : a.name.common_pfx b.name < i := by omega
      refine Or.inl (common_pfx_le_of_getD_ne ?_)
      have h1 : List.getD (a.name.with_flipped_bit i)
          (a.name.common_pfx b.name) false =
          List.getD a.name (a.name.common_pfx b.name) false := by
        unfold XorName.with_flipped_bit
        exact getD_set_ne (by omega)
      rw [h1]
      exact getD_common_pfx_ne (by omega) (by omega)
  simp only [Pfx.is_compatible, Bool.or_eq_false_iff,
    decide_eq_false_iff_not, not_le]
  constructor <;> omega

/-- Claim C8 — `is_neighbour(a, b)` holds iff `a` and `b` are incompatible
and there is exactly one bit position `i` below both bit counts whose flip
in `a`'s name makes the prefixes compatible; moreover the two concrete
examples from the spec evaluate as stated. -/
theorem is_neighbour_characterization :
    (∀ a b : Pfx, a.wf → b.wf →
      (a.is_neighbour b = true ↔
        (¬ a.is_compatible b = true ∧
          ∃! i, i < min a.bit_count b.bit_count ∧
            (Pfx.mk a.bit_count (a.name.with_flipped_bit i)).is_compatible b
              = true)))
    ∧ (mkPfx [true, false, true]).is_neighbour
        (mkPfx [true, true, true, true]) = true
    ∧ (mkPfx [true, false, true, false]).is_neighbour
        (mkPfx [true, true, true, true]) = false := by
  refine ⟨?_, by decide, by decide⟩
  intro a b ha hb
  by_cases hcmp : a.bit_count ≤ a.name.common_pfx b.name ∨
      b.bit_count ≤ a.name.common_pfx b.name
  · have hL : a.is_neighbour b = false := by
      simp only [Pfx.is_neighbour]
      rw [if_pos hcmp]
    have hC : a.is_compatible b = true := by
      simp only [Pfx.is_compatible, Bool.or_eq_true, decide_eq_true_eq]
      exact hcmp
    constructor
    · intro h
      rw [hL] at h
      cases h
    · rintro ⟨hnc, _⟩
      exact absurd hC hnc
  · push_neg at hcmp
    obtain ⟨hca, hcb⟩ := hcmp
    have hL : a.is_neighbour b =
        (decide (a.bit_count ≤
            (a.name.with_flipped_bit (a.name.common_pfx b.name)).common_pfx
              b.name) ||
          decide (b.bit_count ≤
            (a.name.with_flipped_bit (a.name.common_pfx b.name)).common_pfx
              b.name)) := by
      simp only [Pfx.is_neighbour]
      rw [if_neg (by omega)]
    have hflip_compat : ∀ i, i < min a.bit_count b.bit_count →
        (Pfx.mk a.bit_count (a.name.with_flipped_bit i)).is_compatible b
          = true → i = a.name.common_pfx b.name := by
      intro i hi hcompat
      by_contra hne
      rw [flip_not_compatible_of_ne ha hb hca hcb hi hne] at hcompat
      cases hcompat
    have hnc : ¬ a.is_compatible b = true := by
      simp only [Pfx.is_compatible, Bool.or_eq_true, decide_eq_true_eq]
      omega
    constructor
    · intro h
      rw [hL] at h
      refine ⟨hnc, ⟨a.name.common_pfx b.name, ⟨by omega, ?_⟩, ?_⟩⟩
      · simp only [Pfx.is_compatible]
        exact h
      · rintro i ⟨hi1, hi2⟩
        exact hflip_compat i hi1 hi2
    · rintro ⟨-, ⟨i, ⟨hi1, hi2⟩, -⟩⟩
      have hieq : i = a.name.common_pfx b.name := hflip_compat i hi1 hi2
      subst hieq
      rw [hL]
      simpa only [Pfx.is_compatible] using hi2

/-- Witness for `is_neighbour_characterization`: the general
characterization applied to the concrete prefixes "101" and "1111". -/
theorem is_neighbour_characterization_witness :
    (mkPfx [true, false, true]).is_neighbour (mkPfx [true, true, true, true])
        = true ↔
      (¬ (mkPfx [true, false, true]).is_compatible
          (mkPfx [true, true, true, true]) = true ∧
        ∃! i, i < min (mkPfx [true, false, true]).bit_count
            (mkPfx [true, true, true, true]).bit_count ∧
          (Pfx.mk (mkPfx [true, false, true]).bit_count
              ((mkPfx [true, false, true]).name.with_flipped_bit i)).is_compatible
            (mkPfx [true, true, true, true]) = true) :=
  is_neighbour_characterization.1 (mkPfx [true, false, true])
    (mkPfx [true, true, true, true]) (by constructor <;> decide)
    (by constructor <;> decide)

/- Lemmas about the section proof chain. -/

theorem keys_length (c : SectionProofChain) :
    c.keys.length = c.tail.length + 1 := by
  simp [SectionProofChain.keys]

theorem len_eq_keys_length (c : SectionProofChain) :
    c.len = c.keys.length := by
  simp [SectionProofChain.len, SectionProofChain.keys]
  omega

theorem getD_mem {α : Type} {l : List α} {i : Nat} (d : α)
    (h : i < l.length) : List.getD l i d ∈ l := by
  rw [List.getD_eq_getElem?_getD, List.getElem?_eq_getElem h]
  exact List.getElem_mem h

theorem map_key_getD (l : List Block) (j : Nat) :
    List.getD (l.map Block.key) j 0 = (List.getD l j Block.dflt).key := by
  induction l generalizing j with
  | nil => simp [Block.dflt]
  | cons b rest ih =>
    cases j with
    | zero => rfl
    | succ j => simpa [List.getD_cons_succ] using ih j

theorem keys_getD_succ (c : SectionProofChain) (j : Nat) :
    List.getD c.keys (j + 1) 0 = (List.getD c.tail j Block.dflt).key := by
  simp only [SectionProofChain.keys, List.getD_cons_succ]
  exact map_key_getD c.tail j

theorem keys_getD_zero (c : SectionProofChain) :
    List.getD c.keys 0 0 = c.head := rfl

theorem getD_drop {α : Type} (l : List α) (i j : Nat) (d : α) :
    List.getD (l.drop i) j d = List.getD l (i + j) d := by
  rw [List.getD_eq_getElem?_getD, List.getD_eq_getElem?_getD,
    List.getElem?_drop]

theorem getD_reverse {α : Type} {l : List α} {s : Nat} (d : α)
    (h : s < l.length) :
    List.getD l.reverse s d = List.getD l (l.length - 1 - s) d := by
  rw [List.getD_eq_getElem?_getD, List.getD_eq_getElem?_getD,
    List.getElem?_reverse h]

theorem findRev_eq_none_iff (T : List BlsPublicKey) (last : Nat)
    (l : List BlsPublicKey) (r : Nat) :
    findRev T last r l = none ↔ ∀ k ∈ l, k ∉ T := by
  induction l generalizing r with
  | nil => simp [findRev]
  | cons a rest ih =>
    by_cases ha : a ∈ T
    · simp [findRev, ha]
    · simp only [findRev, if_neg ha]
      rw [ih (r + 1)]
      simp [ha]

theorem findRev_eq_some_iff (T : List BlsPublicKey) (last : Nat)
    (l : List BlsPublicKey) (r i k : Nat) :
    findRev T last r l = some (i, k) ↔
      ∃ s, s < l.length ∧ List.getD l s 0 = k ∧ k ∈ T ∧
        (∀ t, t < s → List.getD l t 0 ∉ T) ∧ i = last - (r + s) := by
  induction l generalizing r with
  | nil => simp [findRev]
  | cons a rest ih =>
    by_cases ha : a ∈ T
    · simp only [findRev, if_pos ha, Option.some.injEq, Prod.mk.injEq]
      constructor
      · rintro ⟨hi, hk⟩
        exact ⟨0, by simp, by simpa using hk, by rw [← hk]; exact ha,
          by omega, by omega⟩
      · rintro ⟨s, hs, hgd, hkT, hprev, hieq⟩
        cases s with
        | zero =>
          simp only [List.getD_cons_zero] at hgd
          subst hgd
          exact ⟨by omega, rfl⟩
        | succ s =>
          exact absurd ha (by simpa using hprev 0 (by omega))
    · simp only [findRev, if_neg ha]
      rw [ih (r + 1)]
      constructor
      · rintro ⟨s, hs, hgd, hkT, hprev, hieq⟩
        refine ⟨s + 1, by simpa using Nat.succ_lt_succ hs,
          by simpa [List.getD_cons_succ] using hgd, hkT, ?_, by omega⟩
        intro t ht
        cases t with
        | zero => simpa using ha
        | succ t => simpa [List.getD_cons_succ] using hprev t (by omega)
      · rintro ⟨s, hs, hgd, hkT, hprev, hieq⟩
        cases s with
        | zero =>
          simp only [List.getD_cons_zero] at hgd
          subst hgd
          exact absurd hkT ha
        | succ s =>
          refine ⟨s, by simpa using hs, by simpa [List.getD_cons_succ] using hgd,
            hkT, ?_, by omega⟩
          intro t ht
          simpa [List.getD_cons_succ] using hprev (t + 1) (by omega)

theorem latest_trusted_key_eq_none_iff {c : SectionProofChain}
    {T : List BlsPublicKey} :
    c.latest_trusted_key T = none ↔ ∀ k ∈ c.keys, k ∉ T := by
  unfold SectionProofChain.latest_trusted_key
  rw [findRev_eq_none_iff]
  simp [List.mem_reverse]

theorem latest_trusted_key_eq_some_iff {c : SectionProofChain}
    {T : List BlsPublicKey} {i k : Nat} :
    c.latest_trusted_key T = some (i, k) ↔
      (c.newestTrustedIdx T i ∧ List.getD c.keys i 0 = k) := by
  unfold SectionProofChain.latest_trusted_key
  rw [findRev_eq_some_iff]
  have hlen : c.len - 1 = c.keys.length - 1 := by
    rw [len_eq_keys_length]
  have hpos : 0 < c.keys.length := by
    rw [keys_length]
    omega
  constructor
  · rintro ⟨s, hs, hgd, hkT, hprev, hieq⟩
    rw [List.length_reverse] at hs
    rw [getD_reverse 0 hs] at hgd
    have hieq' : i = c.keys.length - 1 - s := by omega
    refine ⟨⟨by omega, ?_, ?_⟩, ?_⟩
    · rw [hieq', hgd]
      exact hkT
    · intro j hij hj
      have ht : c.keys.length - 1 - j < s := by omega
      have := hprev (c.keys.length - 1 - j) ht
      rw [getD_reverse 0 (by omega)] at this
      have hjj : c.keys.length - 1 - (c.keys.length - 1 - j) = j := by omega
      rwa [hjj] at this
    · rw [hieq', hgd]
  · rintro ⟨⟨hilen, hmem, hnew⟩, hk⟩
    refine ⟨c.keys.length - 1 - i, by rw [List.length_reverse]; omega, ?_, ?_,
      ?_, by omega⟩
    · rw [getD_reverse 0 (by omega)]
      have : c.keys.length - 1 - (c.keys.length - 1 - i) = i := by omega
      rw [this, hk]
    · rw [← hk]
      exact hmem
    · intro t ht
      rw [getD_reverse 0 (by omega)]
      exact hnew (c.keys.length - 1 - t) (by omega) (by omega)

theorem checkFrom_ne_unknown (vf : VerifyFn) (bs : List Block)
    (anchor : BlsPublicKey) :
    checkFrom vf anchor bs ≠ TrustStatus.Unknown := by
  induction bs generalizing anchor with
  | nil => simp [checkFrom]
  | cons b rest ih =>
    simp only [checkFrom]
    by_cases hv : b.verify vf anchor = true
    · rw [if_pos hv]
      exact ih b.key
    · rw [if_neg hv]
      simp

theorem checkFrom_trusted_or_invalid (vf : VerifyFn) (bs : List Block)
    (anchor : BlsPublicKey) :
    checkFrom vf anchor bs = TrustStatus.Trusted ∨
      checkFrom vf anchor bs = TrustStatus.Invalid := by
  cases h : checkFrom vf anchor bs with
  | Trusted => exact Or.inl rfl
  | Invalid => exact Or.inr rfl
  | Unknown => exact absurd h (checkFrom_ne_unknown vf bs anchor)

theorem checkFrom_eq_trusted_iff (vf : VerifyFn) (bs : List Block)
    (anchor : BlsPublicKey) :
    checkFrom vf anchor bs = TrustStatus.Trusted ↔
      ∀ j, j < bs.length →
        (List.getD bs j Block.dflt).verify vf
          (List.getD (anchor :: bs.map Block.key) j 0) = true := by
  induction bs generalizing anchor with
  | nil => simp [checkFrom]
  | cons b rest ih =>
    simp only [checkFrom]
    by_cases hv : b.verify vf anchor = true
    · rw [if_pos hv, ih b.key]
      constructor
      · intro h j hj
        cases j with
        | zero => simpa using hv
        | succ j =>
          simp only [List.length_cons] at hj
          simpa [List.getD_cons_succ] using h j (by omega)
      · intro h j hj
        have := h (j + 1) (by simp only [List.length_cons]; omega)
        simpa [List.getD_cons_succ] using this
    · rw [if_neg hv]
      constructor
      · intro h
        exact absurd h (by simp)
      · intro h
        have := h 0 (by simp)
        simp only [List.getD_cons_zero] at this
        exact absurd this hv

theorem anchor_getD (c : SectionProofChain) (i j : Nat) :
    List.getD (List.getD c.keys i 0 :: (c.tail.drop i).map Block.key) j 0 =
      List.getD c.keys (i + j) 0 := by
  cases j with
  | zero => simp
  | succ j =>
    simp only [List.getD_cons_succ]
    rw [map_key_getD, getD_drop]
    rw [show i + (j + 1) = (i + j) + 1 by omega, keys_getD_succ]

theorem checkFrom_drop_trusted_iff (vf : VerifyFn) (c : SectionProofChain)
    (i : Nat) (hi : i ≤ c.tail.length) :
    checkFrom vf (List.getD c.keys i 0) (c.tail.drop i) =
        TrustStatus.Trusted ↔
      ∀ j, i ≤ j → j < c.tail.length → blockOk vf c j = true := by
  rw [checkFrom_eq_trusted_iff]
  constructor
  · intro h j hij hj
    have hlt : j - i < (c.tail.drop i).length := by
      rw [List.length_drop]
      omega
    have := h (j - i) hlt
    rw [anchor_getD, getD_drop] at this
    rw [show i + (j - i) = j by omega] at this
    exact this
  · intro h j hj
    rw [List.length_drop] at hj
    rw [anchor_getD, getD_drop]
    exact h (i + j) (by omega) (by omega)

theorem selfVerifyFrom_iff_checkFrom (vf : VerifyFn) (bs : List Block)
    (k : BlsPublicKey) :
    selfVerifyFrom vf k bs = true ↔
      checkFrom vf k bs = TrustStatus.Trusted := by
  induction bs generalizing k with
  | nil => simp [selfVerifyFrom, checkFrom]
  | cons b rest ih =>
    simp only [selfVerifyFrom, checkFrom]
    by_cases hv : b.verify vf k = true
    · rw [if_pos hv, if_pos hv, ih]
    · rw [if_neg hv, if_neg hv]
      simp

theorem self_verify_iff_all_blockOk (vf : VerifyFn) (c : SectionProofChain) :
    c.self_verify vf = true ↔
      ∀ j, j < c.tail.length → blockOk vf c j = true := by
  unfold SectionProofChain.self_verify
  rw [selfVerifyFrom_iff_checkFrom]
  have h0 := checkFrom_drop_trusted_iff vf c 0 (by omega)
  simp only [List.drop_zero, keys_getD_zero] at h0
  rw [h0]
  constructor
  · intro h j hj
    exact h j (by omega) hj
  · intro h j _ hj
    exact h j hj

theorem newestTrustedIdx_unique {c : SectionProofChain}
    {T : List BlsPublicKey} {i i' : Nat}
    (h : c.newestTrustedIdx T i) (h' : c.newestTrustedIdx T i') : i = i' := by
  obtain ⟨hi, hmem, hnew⟩ := h
  obtain ⟨hi', hmem', hnew'⟩ := h'
  rcases Nat.lt_trichotomy i i' with hlt | heq | hgt
  · exact absurd hmem' (hnew i' hlt hi')
  · exact heq
  · exact absurd hmem (hnew' i hgt hi)

theorem check_trust_eq_trusted_iff (vf : VerifyFn) (c : SectionProofChain)
    (T : List BlsPublicKey) :
    c.check_trust vf T = TrustStatus.Trusted ↔
      ∃ i, c.newestTrustedIdx T i ∧
        ∀ j, i ≤ j → j < c.tail.length → blockOk vf c j = true := by
  rcases h : c.latest_trusted_key T with _ | ⟨i, k⟩
  · have hct : c.check_trust vf T =
        (if c.self_verify vf then TrustStatus.Unknown
          else TrustStatus.Invalid) := by
      unfold SectionProofChain.check_trust
      rw [h]
    rw [hct]
    constructor
    · intro hres
      by_cases hs : c.self_verify vf = true
      · rw [if_pos hs] at hres
        exact absurd hres (by simp)
      · rw [if_neg hs] at hres
        exact absurd hres (by simp)
    · rintro ⟨i, ⟨hilen, hmem, -⟩, -⟩
      have := latest_trusted_key_eq_none_iff.mp h (List.getD c.keys i 0)
        (getD_mem 0 hilen)
      exact absurd hmem this
  · obtain ⟨hnewest, hk⟩ := latest_trusted_key_eq_some_iff.mp h
    have hct : c.check_trust vf T = checkFrom vf k (c.tail.drop i) := by
      unfold SectionProofChain.check_trust
      rw [h]
    have hile : i ≤ c.tail.length := by
      have := hnewest.1
      rw [keys_length] at this
      omega
    rw [hct, ← hk, checkFrom_drop_trusted_iff vf c i hile]
    constructor
    · intro hall
      exact ⟨i, hnewest, hall⟩
    · rintro ⟨i', hnewest', hall'⟩
      rw [newestTrustedIdx_unique hnewest hnewest']
      exact hall'

theorem check_trust_eq_unknown_iff (vf : VerifyFn) (c : SectionProofChain)
    (T : List BlsPublicKey) :
    c.check_trust vf T = TrustStatus.Unknown ↔
      ((∀ k ∈ c.keys, k ∉ T) ∧ c.self_verify vf = true) := by
  rcases h : c.latest_trusted_key T with _ | ⟨i, k⟩
  · have hct : c.check_trust vf T =
        (if c.self_verify vf then TrustStatus.Unknown
          else TrustStatus.Invalid) := by
      unfold SectionProofChain.check_trust
      rw [h]
    rw [hct]
    by_cases hs : c.self_verify vf = true
    · rw [if_pos hs]
      simp only [true_iff]
      exact ⟨latest_trusted_key_eq_none_iff.mp h, hs⟩
    · rw [if_neg hs]
      constructor
      · intro hres
        exact absurd hres (by simp)
      · rintro ⟨-, hs'⟩
        exact absurd hs' hs
  · obtain ⟨⟨hilen, hmem, -⟩, -⟩ := latest_trusted_key_eq_some_iff.mp h
    have hct : c.check_trust vf T = checkFrom vf k (c.tail.drop i) := by
      unfold SectionProofChain.check_trust
      rw [h]
    rw [hct]
    constructor
    · intro hres
      exact absurd hres (checkFrom_ne_unknown vf (c.tail.drop i) k)
    · rintro ⟨hno, -⟩
      exact absurd hmem (hno (List.getD c.keys i 0) (getD_mem 0 hilen))

/-- Claim C1 (amended) — `check_trust` returns `Trusted` iff some trusted
key occurs in the chain and every block after its newest occurrence
verifies against its predecessor key; returns `Unknown` iff no trusted key
occurs and the chain self-verifies; returns `Invalid` otherwise. The final
sentence of the claim holds for chains that self-verify: every key of such
a chain, taken alone as the trusted set, yields `Trusted`. -/
theorem check_trust_characterization (vf : VerifyFn)
    (c : SectionProofChain) (T : List BlsPublicKey) :
    (c.check_trust vf T = TrustStatus.Trusted ↔
      ∃ i, c.newestTrustedIdx T i ∧
        ∀ j, i ≤ j → j < c.tail.length → blockOk vf c j = true) ∧
    (c.check_trust vf T = TrustStatus.Unknown ↔
      ((∀ k ∈ c.keys, k ∉ T) ∧ c.self_verify vf = true)) ∧
    (c.check_trust vf T = TrustStatus.Invalid ↔
      (¬ (∃ i, c.newestTrustedIdx T i ∧
          ∀ j, i ≤ j → j < c.tail.length → blockOk vf c j = true) ∧
        ¬ ((∀ k ∈ c.keys, k ∉ T) ∧ c.self_verify vf = true))) ∧
    (c.self_verify vf = true →
      ∀ k ∈ c.keys, c.check_trust vf [k] = TrustStatus.Trusted) := by
  have ht := check_trust_eq_trusted_iff vf c T
  have hu := check_trust_eq_unknown_iff vf c T
  refine ⟨ht, hu, ?_, ?_⟩
  · constructor
    · intro hinv
      constructor
      · intro hcond
        have := hinv.symm.trans (ht.mpr hcond)
        exact absurd this (by simp)
      · intro hcond
        have := hinv.symm.trans (hu.mpr hcond)
        exact absurd this (by simp)
    · rintro ⟨hnt, hnu⟩
      cases hv : c.check_trust vf T with
      | Trusted => exact absurd (ht.mp hv) hnt
      | Unknown => exact absurd (hu.mp hv) hnu
      | Invalid => rfl
  · intro hs k hk
    rcases hsome : c.latest_trusted_key [k] with _ | ⟨i, k'⟩
    · exact absurd hk (by simpa using latest_trusted_key_eq_none_iff.mp hsome k)
    · obtain ⟨hnewest, -⟩ := latest_trusted_key_eq_some_iff.mp hsome
      apply (check_trust_eq_trusted_iff vf c [k]).mpr
      refine ⟨i, hnewest, ?_⟩
      intro j _ hj
      exact (self_verify_iff_all_blockOk vf c).mp hs j hj

/-- Witness for `check_trust_characterization`: a concrete self-verifying
two-block chain (under a concrete verification function) where trusting the
head key alone yields `Trusted`. -/
theorem check_trust_characterization_witness :
    (SectionProofChain.mk 10 [Block.mk 20 0]).check_trust
        (fun pk s k => decide (pk + s + 10 = k)) [10] = TrustStatus.Trusted :=
  (check_trust_characterization (fun pk s k => decide (pk + s + 10 = k))
      (SectionProofChain.mk 10 [Block.mk 20 0]) [10]).2.2.2
    (by decide) 10 (by decide)

/-- Counterexample to claim C1 as stated: its final sentence quantifies
over every chain and every key present in the chain, but a chain holding a
block whose signature does not verify (such chains arise from
deserialization or `push_without_validation`; the source's own
`check_trust_invalid` test builds one) yields `Invalid`, not `Trusted`,
when an older key is the trusted one. -/
theorem check_trust_all_keys_counterexample :
    (0 : Nat) ∈ (SectionProofChain.mk 0 [Block.mk 1 0]).keys ∧
      (SectionProofChain.mk 0 [Block.mk 1 0]).check_trust
          (fun _ _ _ => false) [0] ≠ TrustStatus.Trusted := by
  constructor
  · decide
  · decide

theorem selfVerifyFrom_append (vf : VerifyFn) (b : Block) (bs : List Block)
    (cur : BlsPublicKey) :
    selfVerifyFrom vf cur (bs ++ [b]) =
      (selfVerifyFrom vf cur bs &&
        b.verify vf ((bs.getLast?.map Block.key).getD cur)) := by
  induction bs generalizing cur with
  | nil =>
    cases hv : b.verify vf cur <;> simp [selfVerifyFrom, hv]
  | cons a rest ih =>
    simp only [List.cons_append, selfVerifyFrom]
    cases hv : a.verify vf cur with
    | false => simp
    | true =>
      simp only [if_pos rfl, if_true, Bool.true_and, List.append_eq]
      rw [ih]
      congr 1
      cases rest with
      | nil => rfl
      | cons r rs =>
        rw [List.getLast?_cons_cons]
        obtain ⟨x, hx⟩ := Option.isSome_iff_exists.mp
          (List.getLast?_isSome.mpr (by simp) : ((r :: rs).getLast?).isSome)
        rw [hx]
        rfl

theorem push_self_verify_preserved (vf : VerifyFn) (c : SectionProofChain)
    (key : BlsPublicKey) (signature : BlsSignature)
    (h : c.self_verify vf = true) :
    (c.push vf key signature).self_verify vf = true := by
  unfold SectionProofChain.push
  by_cases hv : vf c.last_key signature key = true
  · rw [if_pos hv]
    show selfVerifyFrom vf c.head (c.tail ++ [Block.mk key signature]) = true
    rw [selfVerifyFrom_append]
    have hb : (Block.mk key signature).verify vf
        ((c.tail.getLast?.map Block.key).getD c.head) = true := hv
    rw [hb]
    unfold SectionProofChain.self_verify at h
    rw [h]
    rfl
  · rw [if_neg (by simp [hv])]
    exact h

/-- Claim C3 — `push(key, signature)` appends the block exactly when the
last key verifies the signature over the new key, leaves the chain
completely unchanged otherwise, and consequently every chain built by
`new` followed by any sequence of `push` calls self-verifies. -/
theorem push_correct (vf : VerifyFn) :
    (∀ (c : SectionProofChain) (key : BlsPublicKey)
        (signature : BlsSignature),
      (vf c.last_key signature key = true →
        c.push vf key signature =
          SectionProofChain.mk c.head (c.tail ++ [Block.mk key signature])) ∧
      (vf c.last_key signature key = false →
        c.push vf key signature = c)) ∧
    (∀ (first : BlsPublicKey) (ops : List (BlsPublicKey × BlsSignature)),
      (ops.foldl (fun c p => c.push vf p.1 p.2)
          (SectionProofChain.new first)).self_verify vf = true) := by
  constructor
  · intro c key signature
    constructor
    · intro hv
      unfold SectionProofChain.push
      rw [if_pos hv]
    · intro hv
      unfold SectionProofChain.push
      rw [if_neg (by simp [hv])]
  · intro first ops
    have hgen : ∀ (l : List (BlsPublicKey × BlsSignature))
        (c : SectionProofChain), c.self_verify vf = true →
        (l.foldl (fun c p => c.push vf p.1 p.2) c).self_verify vf = true := by
      intro l
      induction l with
      | nil =>
        intro c h
        simpa using h
      | cons p rest ih =>
        intro c h
        simp only [List.foldl_cons]
        exact ih _ (push_self_verify_preserved vf c p.1 p.2 h)
    exact hgen ops (SectionProofChain.new first) rfl

/-- Witness for `push_correct`: a successful push under an
always-accepting verification function appends the block. -/
theorem push_correct_witness :
    SectionProofChain.push (fun _ _ _ => true) (SectionProofChain.new 0) 1 2 =
      SectionProofChain.mk 0 [Block.mk 1 2] :=
  ((push_correct (fun _ _ _ => true)).1 (SectionProofChain.new 0) 1 2).1 rfl

/-- Claim C6 — with a non-empty churn event backlog, `poll_relocation`
returns `None` and leaves the entire shared state (including the
relocation queue) unchanged. -/
theorem poll_relocation_backlogged (s : SharedState)
    (h : s.churn_event_backlog ≠ []) :
    s.poll_relocation = (none, s) := by
  unfold SharedState.poll_relocation
  rw [if_pos h]

/-- Witness for `poll_relocation_backlogged` at a concrete state with one
backlogged event and one queued relocation. -/
theorem poll_relocation_backlogged_witness :
    backlogState.poll_relocation = (none, backlogState) :=
  poll_relocation_backlogged backlogState (by decide)

/-- Claim C10 — `SharedState::update(new)` always ends with the state
equal to `new` except that `handled_genesis_event` is set to true; the
two error situations are only detected (logged), never gate the
replacement. -/
theorem update_replaces_unconditionally (s new : SharedState) :
    (s.update new).1 = { new with handled_genesis_event := true } ∧
    ((s.update new).2.1 = true ↔ s.handled_genesis_event = true) ∧
    ((s.update new).2.2 = true ↔ (1 < s.our_history.len ∧ s ≠ new)) := by
  refine ⟨rfl, Iff.rfl, ?_⟩
  simp [SharedState.update]

/-- Claim C2 (code bug) — the merge panic of `promote_and_demote_elders`
can never fire: its guard compares `self.our_info().elders.len()` with
itself (`old_size` is read from the unchanged state), so the function
returns normally in every case. The second conjunct evaluates the
function at a concrete merge scenario — current elder count 2 meets
`elder_size = 2`, the expected elder set is empty — where the
specification prescribes a fatal panic but the code returns a new
`EldersInfo` normally. -/
theorem promote_and_demote_merge_bug :
    (∀ (s : SharedState) (params : NetworkParams) (our_name : XorName),
      (s.promote_and_demote_elders params our_name).isPanic = false) ∧
    (mergeBugState.promote_and_demote_elders mergeBugParams (mkName [true])
        = PromoteResult.ok (some [EldersInfo.new [] emptyPfx 1]) ∧
      mergeBugParams.elder_size ≤ mergeBugState.our_info.elders.length ∧
      (mergeBugState.elder_candidates mergeBugParams.elder_size).length <
        mergeBugParams.elder_size) := by
  constructor
  · intro s params our_name
    unfold SharedState.promote_and_demote_elders
    split
    · rfl
    · split
      · rfl
      · split
        · rename_i hcond
          exact absurd hcond (by omega)
        · rfl
  · refine ⟨by decide, by decide, by decide⟩

/-- Claim C7 — in the joining stage, a `BootstrapResponse::Join` with a
newer version whose prefix matches our name replaces the stored
`EldersInfo` and sends a `JoinRequest` carrying the new version to every
elder of the new info; a newer version not matching our name only logs
the protocol violation; a non-newer version changes nothing and sends
nothing. -/
theorem handle_bootstrap_response_correct (j : Joining)
    (our_name : XorName) (new_info : EldersInfo) :
    (j.elders_info.version < new_info.version →
      new_info.pfx.matches our_name = true →
      j.handle_bootstrap_response our_name new_info =
        (Joining.mk new_info j.join_type,
          new_info.elders.map (fun dst => (dst.peer_addr,
            JoinRequest.mk new_info.version j.join_type.relocate_payload_of)),
          false)) ∧
    (j.elders_info.version < new_info.version →
      new_info.pfx.matches our_name = false →
      j.handle_bootstrap_response our_name new_info = (j, [], true)) ∧
    (new_info.version ≤ j.elders_info.version →
      j.handle_bootstrap_response our_name new_info = (j, [], false)) := by
  refine ⟨?_, ?_, ?_⟩
  · intro hv hm
    unfold Joining.handle_bootstrap_response
    rw [if_neg (by omega), if_pos hm]
    rfl
  · intro hv hm
    unfold Joining.handle_bootstrap_response
    rw [if_neg (by omega), if_neg (by simp [hm])]
  · intro hv
    unfold Joining.handle_bootstrap_response
    rw [if_pos hv]

/-- Witness for `handle_bootstrap_response_correct`: joining at version 5
receives a version-7 response matching our name — the stored info is
replaced and a version-7 `JoinRequest` goes to the new elder. -/
theorem handle_bootstrap_response_correct_witness :
    joiningV5.handle_bootstrap_response zeroName eldersInfoV7 =
      (Joining.mk eldersInfoV7 (JoinType.First 0),
        [(nodeB.peer_addr, JoinRequest.mk 7 none)], false) :=
  (handle_bootstrap_response_correct joiningV5 zeroName eldersInfoV7).1
    (by decide) (by decide)

/-- Claim C4 — `update_section_knowledge` emits exactly the prescribed
events: `SendNeighbourInfo` when the source key is unknown and the source
is our neighbour, or when the source is a neighbour whose knowledge of us
(the index of the provided `dst_key` in our history, 0 if absent) is
below our last key index; `TheirKeyInfo` when the key is unknown and the
source is not a neighbour; `TheirKnowledge` when `dst_key` is provided
and its index exceeds the recorded knowledge — and nothing else. A
non-section source yields no events. -/
theorem update_section_knowledge_events (s : SharedState) (p0 : Pfx)
    (key : BlsPublicKey) (dst_key : Option BlsPublicKey)
    (hash : MessageHash) :
    (∀ name,
      s.update_section_knowledge (SrcAuthority.node name) dst_key hash
        = []) ∧
    (∀ e,
      e ∈ s.update_section_knowledge (SrcAuthority.section p0 key) dst_key
          hash ↔
        ((e = AccumulatingEvent.SendNeighbourInfo p0.name hash ∧
            ((s.sections.has_key key = false ∧
                s.our_pfx.is_neighbour p0 = true) ∨
              (∃ dk, dst_key = some dk ∧
                s.our_pfx.is_neighbour p0 = true ∧
                (s.our_history.index_of dk).getD 0 <
                  s.our_history.last_key_index))) ∨
          (e = AccumulatingEvent.TheirKeyInfo p0 key ∧
            s.sections.has_key key = false ∧
            s.our_pfx.is_neighbour p0 = false) ∨
          (∃ dk, dst_key = some dk ∧
            e = AccumulatingEvent.TheirKnowledge p0
              ((s.our_history.index_of dk).getD 0) ∧
            s.sections.knowledge_by_section p0 <
              (s.our_history.index_of dk).getD 0))) := by
  constructor
  · intro name
    rfl
  · intro e
    unfold SharedState.update_section_knowledge
    cases dst_key with
    | none =>
      cases hk : s.sections.has_key key <;>
        cases hnb : s.our_pfx.is_neighbour p0 <;>
          simp [SrcAuthority.as_section_prefix_and_key, hk, hnb]
    | some dk =>
      cases hk : s.sections.has_key key <;>
        cases hnb : s.our_pfx.is_neighbour p0 <;>
          by_cases hlt : s.sections.knowledge_by_section p0 <
              (s.our_history.index_of dk).getD 0 <;>
            by_cases hlast : (s.our_history.index_of dk).getD 0 <
                s.our_history.last_key_index <;>
              simp [SrcAuthority.as_section_prefix_and_key, hk, hnb, hlt,
                hlast] <;>
              tauto

theorem matches_pushed_iff (p : Pfx) (b : Bool) (n : XorName)
    (hp : List.length p.name = XOR_NAME_BITS)
    (hbc : p.bit_count < XOR_NAME_BITS)
    (hn : XOR_NAME_BITS ≤ List.length n) :
    ((p.pushed b).matches n = true ↔
      (p.matches n = true ∧ XorName.bit n p.bit_count = b)) := by
  have hmin : min (p.bit_count + 1) XOR_NAME_BITS = p.bit_count + 1 := by
    omega
  simp only [Pfx.pushed, Pfx.matches, XorName.with_bit, XorName.bit, hmin,
    decide_eq_true_eq]
  constructor
  · intro h
    constructor
    · refine le_common_pfx_of_getD_eq (by omega) (by omega) ?_
      intro k hk
      have h1 : List.getD (p.name.set p.bit_count b) k false =
          List.getD n k false :=
        getD_eq_of_lt_common_pfx (by omega)
      rwa [getD_set_ne (by omega)] at h1
    · have h1 : List.getD (p.name.set p.bit_count b) p.bit_count false =
          List.getD n p.bit_count false :=
        getD_eq_of_lt_common_pfx (by omega)
      rw [getD_set_self (by omega)] at h1
      exact h1.symm
  · rintro ⟨h1, h2⟩
    refine le_common_pfx_of_getD_eq ?_ (by omega) ?_
    · rw [List.length_set]
      omega
    · intro k hk
      rcases Nat.lt_or_ge k p.bit_count with hkbc | hkbc
      · rw [getD_set_ne (by omega)]
        exact getD_eq_of_lt_common_pfx (by omega)
      · have hkeq : k = p.bit_count := by omega
        subst hkeq
        rw [getD_set_self (by omega)]
        exact h2.symm

theorem length_insertSorted {α : Type} (le : α → α → Bool) (x : α)
    (l : List α) : (insertSorted le x l).length = l.length + 1 := by
  induction l with
  | nil => rfl
  | cons y ys ih =>
    simp only [insertSorted]
    by_cases h : le x y = true
    · rw [if_pos h]
      simp
    · rw [if_neg h]
      simp [ih]

theorem length_sortBy {α : Type} (le : α → α → Bool) (l : List α) :
    (sortBy le l).length = l.length := by
  induction l with
  | nil => rfl
  | cons x xs ih => simp [sortBy, length_insertSorted, ih]

theorem mem_insertSorted {α : Type} (le : α → α → Bool) (x a : α)
    (l : List α) : a ∈ insertSorted le x l ↔ a = x ∨ a ∈ l := by
  induction l with
  | nil => simp [insertSorted]
  | cons y ys ih =>
    simp only [insertSorted]
    by_cases h : le x y = true
    · rw [if_pos h]
      simp [List.mem_cons]
    · rw [if_neg h]
      simp only [List.mem_cons, ih]
      tauto

theorem mem_sortBy {α : Type} (le : α → α → Bool) (a : α) (l : List α) :
    a ∈ sortBy le l ↔ a ∈ l := by
  induction l with
  | nil => simp [sortBy]
  | cons x xs ih => simp [sortBy, mem_insertSorted, ih]

theorem ecmp_matches (m : SectionMembers) (p : Pfx) (k : Nat) :
    ∀ nd ∈ m.elder_candidates_matching_prefix p k,
      p.matches nd.name = true := by
  intro nd hnd
  unfold SectionMembers.elder_candidates_matching_prefix at hnd
  rw [List.mem_map] at hnd
  obtain ⟨info, hinfo, heq⟩ := hnd
  have h2 := List.take_subset k _ hinfo
  rw [mem_sortBy, List.mem_filter] at h2
  rw [← heq]
  exact h2.2

theorem ecmp_ne_nil (m : SectionMembers) (p : Pfx) (k : Nat) (hk : 1 ≤ k)
    (hex : ∃ info ∈ m.active, p.matches info.p2p_node.name = true) :
    m.elder_candidates_matching_prefix p k ≠ [] := by
  unfold SectionMembers.elder_candidates_matching_prefix
  obtain ⟨info, hia, hm⟩ := hex
  have hfil : info ∈
      m.active.filter (fun i => p.matches i.p2p_node.name) :=
    List.mem_filter.mpr ⟨hia, hm⟩
  have hlen :
      0 < (m.active.filter (fun i => p.matches i.p2p_node.name)).length :=
    List.length_pos_of_mem hfil
  intro hcontra
  have := congrArg List.length hcontra
  simp only [List.length_map, List.length_take, length_sortBy,
    List.length_nil] at this
  omega

theorem mem_mature_iff (m : SectionMembers) (nd : P2pNode) :
    nd ∈ m.mature ↔
      ∃ info ∈ m.active, info.is_mature = true ∧ info.p2p_node = nd := by
  unfold SectionMembers.mature
  constructor
  · intro h
    rw [List.mem_map] at h
    obtain ⟨info, hinf, heq⟩ := h
    rw [List.mem_filter] at hinf
    exact ⟨info, hinf.1, hinf.2, heq⟩
  · rintro ⟨info, hia, him, heq⟩
    rw [List.mem_map]
    exact ⟨info, List.mem_filter.mpr ⟨hia, him⟩, heq⟩

/-- Claim C5 — `try_split` returns `Some` iff the counts of mature
members under the two child prefixes both reach
`recommended_section_size`; when it does, the two `EldersInfo`s carry the
two child prefixes (ours being the one extending our prefix by our
name's next bit), version = current + 1, every elder's name matches its
child prefix, and each has at least one elder. Hypotheses: our prefix is
a well-formed non-full prefix, the network parameters are positive, and
every mature member's (256-bit) name matches our prefix (spec §4.6
invariant). -/
theorem try_split_correct (s : SharedState) (params : NetworkParams)
    (our_name : XorName)
    (hlen : List.length s.our_pfx.name = XOR_NAME_BITS)
    (hbc : s.our_pfx.bit_count < XOR_NAME_BITS)
    (hrss : 1 ≤ params.recommended_section_size)
    (hes : 1 ≤ params.elder_size)
    (hmem : ∀ nd ∈ s.our_members.mature,
      s.our_pfx.matches nd.name = true ∧
        XOR_NAME_BITS ≤ List.length nd.name) :
    ((s.try_split params our_name).isSome = true ↔
      (params.recommended_section_size ≤
          countMatureChild s (our_name.bit s.our_pfx.bit_count) ∧
        params.recommended_section_size ≤
          countMatureChild s (!(our_name.bit s.our_pfx.bit_count)))) ∧
    (∀ i1 i2, s.try_split params our_name = some (i1, i2) →
      (i1.pfx = s.our_pfx.pushed (our_name.bit s.our_pfx.bit_count) ∧
        i2.pfx = s.our_pfx.pushed (!(our_name.bit s.our_pfx.bit_count)) ∧
        i1.version = s.our_info.version + 1 ∧
        i2.version = s.our_info.version + 1 ∧
        (∀ nd ∈ i1.elders, i1.pfx.matches nd.name = true) ∧
        (∀ nd ∈ i2.elders, i2.pfx.matches nd.name = true) ∧
        i1.elders ≠ [] ∧ i2.elders ≠ [])) := by
  have hfpos : List.filter (fun nd =>
      decide (nd.name.bit s.our_pfx.bit_count =
        our_name.bit s.our_pfx.bit_count)) s.our_members.mature =
      List.filter (fun nd =>
        (s.our_pfx.pushed (our_name.bit s.our_pfx.bit_count)).matches
          nd.name) s.our_members.mature := by
    apply List.filter_congr
    intro nd hnd
    obtain ⟨hmatch, hlen'⟩ := hmem nd hnd
    rw [Bool.eq_iff_iff, decide_eq_true_eq,
      matches_pushed_iff s.our_pfx _ nd.name hlen hbc hlen']
    constructor
    · intro h
      exact ⟨hmatch, h⟩
    · intro h
      exact h.2
  have hfneg : List.filter (fun nd =>
      decide (¬ (nd.name.bit s.our_pfx.bit_count =
        our_name.bit s.our_pfx.bit_count))) s.our_members.mature =
      List.filter (fun nd =>
        (s.our_pfx.pushed (!(our_name.bit s.our_pfx.bit_count))).matches
          nd.name) s.our_members.mature := by
    apply List.filter_congr
    intro nd hnd
    obtain ⟨hmatch, hlen'⟩ := hmem nd hnd
    rw [Bool.eq_iff_iff, decide_eq_true_eq,
      matches_pushed_iff s.our_pfx _ nd.name hlen hbc hlen']
    constructor
    · intro h
      refine ⟨hmatch, ?_⟩
      cases hb : nd.name.bit s.our_pfx.bit_count <;>
        cases hb' : our_name.bit s.our_pfx.bit_count <;> simp_all
    · rintro ⟨-, h⟩
      cases hb : nd.name.bit s.our_pfx.bit_count <;>
        cases hb' : our_name.bit s.our_pfx.bit_count <;> simp_all
  constructor
  · unfold SharedState.try_split
    rw [hfpos, hfneg]
    split
    · rename_i hcond
      simp only [Option.isSome_none, Bool.false_eq_true, false_iff]
      rintro ⟨h1, h2⟩
      unfold countMatureChild at h1 h2
      omega
    · rename_i hcond
      simp only [Option.isSome_some, true_iff]
      unfold countMatureChild
      constructor <;> omega
  · intro i1 i2 hsome
    unfold SharedState.try_split at hsome
    rw [hfpos, hfneg] at hsome
    split at hsome
    · exact absurd hsome (by simp)
    · rename_i hcond
      injection hsome with hpair
      injection hpair with hi1 hi2
      subst hi1
      subst hi2
      refine ⟨rfl, rfl, rfl, rfl, ?_, ?_, ?_, ?_⟩
      · exact ecmp_matches s.our_members _ params.elder_size
      · exact ecmp_matches s.our_members _ params.elder_size
      · apply ecmp_ne_nil s.our_members _ params.elder_size hes
        have hpos : 0 < (List.filter (fun nd =>
            (s.our_pfx.pushed (our_name.bit s.our_pfx.bit_count)).matches
              nd.name) s.our_members.mature).length := by
          omega
        obtain ⟨nd, hnd⟩ := List.exists_mem_of_length_pos hpos
        rw [List.mem_filter] at hnd
        obtain ⟨info, hia, -, heq⟩ := (mem_mature_iff _ _).mp hnd.1
        refine ⟨info, hia, ?_⟩
        rw [heq]
        exact hnd.2
      · apply ecmp_ne_nil s.our_members _ params.elder_size hes
        have hpos : 0 < (List.filter (fun nd =>
            (s.our_pfx.pushed (!(our_name.bit s.our_pfx.bit_count))).matches
              nd.name) s.our_members.mature).length := by
          omega
        obtain ⟨nd, hnd⟩ := List.exists_mem_of_length_pos hpos
        rw [List.mem_filter] at hnd
        obtain ⟨info, hia, -, heq⟩ := (mem_mature_iff _ _).mp hnd.1
        refine ⟨info, hia, ?_⟩
        rw [heq]
        exact hnd.2

/-- Witness for `try_split_correct` at a concrete splitting state: the
empty-prefix section with one mature member under each child. -/
theorem try_split_correct_witness :
    ((splitState.try_split splitParams zeroName).isSome = true ↔
      (splitParams.recommended_section_size ≤
          countMatureChild splitState
            (zeroName.bit splitState.our_pfx.bit_count) ∧
        splitParams.recommended_section_size ≤
          countMatureChild splitState
            (!(zeroName.bit splitState.our_pfx.bit_count)))) ∧
    (∀ i1 i2, splitState.try_split splitParams zeroName = some (i1, i2) →
      (i1.pfx = splitState.our_pfx.pushed
          (zeroName.bit splitState.our_pfx.bit_count) ∧
        i2.pfx = splitState.our_pfx.pushed
          (!(zeroName.bit splitState.our_pfx.bit_count)) ∧
        i1.version = splitState.our_info.version + 1 ∧
        i2.version = splitState.our_info.version + 1 ∧
        (∀ nd ∈ i1.elders, i1.pfx.matches nd.name = true) ∧
        (∀ nd ∈ i2.elders, i2.pfx.matches nd.name = true) ∧
        i1.elders ≠ [] ∧ i2.elders ≠ [])) :=
  try_split_correct splitState splitParams zeroName (by decide) (by decide)
    (by decide) (by decide) (by decide)
